import Mathlib

/-!
Verification of the `gonoto` generator (src/main.go and the seekBuffer file).

The development shallowly embeds the program's pure core:
* the chunk encoder (`generateChunks` / `writeChunk`),
* the font selector (`descDistance` / `appendMatchingFonts`),
* the composer loop of `generateFonts` (lines 233-248),
* the filename classifier (lines 122-159, `indexOf`, `exactIndexOf`),
* the `seekBuffer` type.

Bytes are modelled as `Nat` (the program guarantees `< 256`), Go `int`/`int64`
as `Int` (no intermediate value here approaches 2^63, so ordinary integer
arithmetic is exact), and Go strings as `List Char`.  The external gzip
compressor (Go stdlib, an external collaborator per the spec) is treated as an
abstract pair of functions with a round-trip hypothesis.
-/

/-! ### Chunk encoder (src/main.go, generateChunks and writeChunk) -/

/-- The fixed maximum chunk size constant from `generateChunks`. -/
def chunkSize : Nat := 20 * 1024 * 1024

/-- One run of `writeChunk`'s read loop.  `buf` is the current content of the
4096-byte scratch array (`var buf [4096]byte`), `rest` the bytes the chunk's
reader still holds.  `io.ReadFull` overwrites `buf[0:n)` with the next `n`
bytes (`n = min 4096 rest.length`); a full read emits the whole buffer and
loops, a short read with `n % 8 = 0` emits `buf[0:n)` and stops, and a short
read with `n % 8 ≠ 0` first zeroes `buf[n:n+4)` (the source copies only the
four bytes of `[]byte{0, 0, 0, 0}`), bumps `n` to the next multiple of 8 and
emits `buf[0:n)` — so pad bytes beyond the fourth are stale buffer contents.
The function returns the emitted byte stream. -/
def writeChunkLoop (buf rest : List Nat) : List Nat :=
  if rest.length = 0 then []
  else if 4096 ≤ rest.length then
    rest.take 4096 ++ writeChunkLoop (rest.take 4096) (rest.drop 4096)
  else if rest.length % 8 = 0 then rest
  else
    (rest ++ List.replicate (min 4 (4096 - rest.length)) 0 ++
        buf.drop (rest.length + min 4 (4096 - rest.length))).take
      (rest.length + (8 - rest.length % 8))
termination_by rest.length
decreasing_by simp [List.length_drop]; omega

/-- The byte stream `writeChunk` emits for one chunk: the scratch array starts
zero-initialised (`var buf [4096]byte`). -/
def writeChunkBytes (c : List Nat) : List Nat :=
  writeChunkLoop (List.replicate 4096 0) c

/-- `binary.LittleEndian.Uint64` applied to consecutive 8-byte groups of the
emitted stream (every iteration of `writeChunk` emits a multiple of 8 bytes,
so grouping the concatenated stream is the same as grouping per iteration). -/
def wordsOfBytes : List Nat → List Nat
  | b0 :: b1 :: b2 :: b3 :: b4 :: b5 :: b6 :: b7 :: rest =>
      (b0 + 256 * (b1 + 256 * (b2 + 256 * (b3 + 256 * (b4 + 256 * (b5 + 256 * (b6 + 256 * b7))))))) ::
        wordsOfBytes rest
  | _ => []

/-- The word list stored in one generated `chunkN.go` file. -/
def writeChunkWords (c : List Nat) : List Nat :=
  wordsOfBytes (writeChunkBytes c)

/-- The byte extraction performed by the generated decoder (`chunkDecoder.Read`
in the `otc.go` template): `u & 0xff`, `(u & 0xff00) >> 8`, ...  For the words
produced here (`u < 2^64`) the mask-and-shift equals division and remainder by
powers of 256. -/
def fromWord (u : Nat) : List Nat :=
  [u % 256, u / 256 % 256, u / 65536 % 256, u / 16777216 % 256,
   u / 4294967296 % 256, u / 1099511627776 % 256,
   u / 281474976710656 % 256, u / 72057594037927936 % 256]

/-- Decoding a chunk's word list back to its byte payload. -/
def bytesOfWords (ws : List Nat) : List Nat :=
  (ws.map fromWord).flatten

/-- `generateChunks`'s chunking loop: each iteration hands `writeChunk` an
`io.LimitReader(pr, chunkSize)`, so the compressed stream is cut into
consecutive segments of at most `chunkSize` bytes; the loop stops at the first
empty segment (whose file is deleted again), i.e. when the stream is
exhausted. -/
def splitChunks (s : List Nat) : List (List Nat) :=
  if s = [] then []
  else s.take chunkSize :: splitChunks (s.drop chunkSize)
termination_by s.length
decreasing_by
  simp only [List.length_drop]
  have := List.length_pos.mpr (by assumption : s ≠ [])
  simp [chunkSize]; omega

/-- The word lists of all emitted chunk files, in index order. -/
def chunkWordLists (s : List Nat) : List (List Nat) :=
  (splitChunks s).map writeChunkWords

/-- The manifest (`chunk.go`) declares `decompressedSize = len(data)`, the
length of the blob handed to `generateChunks` before compression. -/
def manifestDecompressedSize (blob : List Nat) : Nat :=
  blob.length

/-- The actual (pre-pad) byte count of the final chunk. -/
def lastChunkLen (s : List Nat) : Nat :=
  ((splitChunks s).getLastD []).length

/-- Reconstruction described by the spec: concatenate the chunk payloads in
chunk-index order and strip the trailing pad inferred from the final chunk's
actual compressed byte count. -/
def reconstruct (chunks : List (List Nat)) (lastLen : Nat) : List Nat :=
  let all := (chunks.map bytesOfWords).flatten
  all.take (all.length - (8 - lastLen % 8) % 8)

/-- Identity compression, used to instantiate the abstract compressor. -/
def idList (b : List Nat) : List Nat := b

theorem writeChunkLoop_decomp : ∀ buf rest : List Nat, buf.length = 4096 →
    ∃ padding, writeChunkLoop buf rest = rest ++ padding ∧
      padding.length = (8 - rest.length % 8) % 8 := by
  intro buf rest
  induction buf, rest using writeChunkLoop.induct with
  | case1 buf rest h0 =>
    intro hb
    refine ⟨[], ?_, ?_⟩
    · rw [writeChunkLoop, if_pos h0]
      simp [List.length_eq_zero.mp h0]
    · simp [h0]
  | case2 buf rest h0 h1 ih =>
    intro hb
    obtain ⟨padding, hpad, hlen⟩ := ih (by simp [List.length_take]; omega)
    refine ⟨padding, ?_, ?_⟩
    · rw [writeChunkLoop, if_neg h0, if_pos h1]
      rw [hpad, ← List.append_assoc, List.take_append_drop]
    · rw [hlen]
      simp only [List.length_drop]
      omega
  | case3 buf rest h0 h1 h2 =>
    intro hb
    refine ⟨[], ?_, ?_⟩
    · rw [writeChunkLoop, if_neg h0, if_neg h1, if_pos h2]
      simp
    · simp [h2]
  | case4 buf rest h0 h1 h2 =>
    intro hb
    refine ⟨(List.replicate (min 4 (4096 - rest.length)) 0 ++
        buf.drop (rest.length + min 4 (4096 - rest.length))).take (8 - rest.length % 8), ?_, ?_⟩
    · rw [writeChunkLoop, if_neg h0, if_neg h1, if_neg h2]
      rw [List.append_assoc, List.take_append]
    · rw [List.length_take]
      simp only [List.length_append, List.length_replicate, List.length_drop, hb]
      omega

theorem writeChunkLoop_lt : ∀ buf rest : List Nat, (∀ y ∈ buf, y < 256) →
    (∀ y ∈ rest, y < 256) → ∀ x ∈ writeChunkLoop buf rest, x < 256 := by
  intro buf rest
  induction buf, rest using writeChunkLoop.induct with
  | case1 buf rest h0 =>
    intro _ _
    rw [writeChunkLoop, if_pos h0]
    simp
  | case2 buf rest h0 h1 ih =>
    intro hbuf hrest
    rw [writeChunkLoop, if_neg h0, if_pos h1]
    intro x hx
    rcases List.mem_append.mp hx with h | h
    · exact hrest x (List.mem_of_mem_take h)
    · exact ih (fun y hy => hrest y (List.mem_of_mem_take hy))
        (fun y hy => hrest y (List.mem_of_mem_drop hy)) x h
  | case3 buf rest h0 h1 h2 =>
    intro hbuf hrest
    rw [writeChunkLoop, if_neg h0, if_neg h1, if_pos h2]
    exact hrest
  | case4 buf rest h0 h1 h2 =>
    intro hbuf hrest
    rw [writeChunkLoop, if_neg h0, if_neg h1, if_neg h2]
    intro x hx
    have hx' := List.mem_of_mem_take hx
    rcases List.mem_append.mp hx' with h | h
    · rcases List.mem_append.mp h with h' | h'
      · exact hrest x h'
      · have := List.eq_of_mem_replicate h'
        omega
    · exact hbuf x (List.mem_of_mem_drop h)

theorem writeChunkBytes_decomp (c : List Nat) :
    ∃ padding, writeChunkBytes c = c ++ padding ∧
      padding.length = (8 - c.length % 8) % 8 :=
  writeChunkLoop_decomp _ _ (List.length_replicate _ _)

theorem writeChunkBytes_lt (c : List Nat) (hc : ∀ y ∈ c, y < 256) :
    ∀ x ∈ writeChunkBytes c, x < 256 :=
  writeChunkLoop_lt _ _ (fun y hy => by
    have := List.eq_of_mem_replicate hy
    omega) hc

theorem fromWord_le (b0 b1 b2 b3 b4 b5 b6 b7 : Nat) (h0 : b0 < 256) (h1 : b1 < 256)
    (h2 : b2 < 256) (h3 : b3 < 256) (h4 : b4 < 256) (h5 : b5 < 256) (h6 : b6 < 256)
    (h7 : b7 < 256) :
    fromWord (b0 + 256 * (b1 + 256 * (b2 + 256 * (b3 + 256 * (b4 + 256 * (b5 + 256 *
      (b6 + 256 * b7))))))) = [b0, b1, b2, b3, b4, b5, b6, b7] := by
  simp only [fromWord, List.cons.injEq, and_true]
  omega

theorem bytesOfWords_wordsOfBytes : ∀ bs : List Nat, bs.length % 8 = 0 →
    (∀ x ∈ bs, x < 256) → bytesOfWords (wordsOfBytes bs) = bs := by
  intro bs
  induction bs using wordsOfBytes.induct with
  | case1 b0 b1 b2 b3 b4 b5 b6 b7 rest ih =>
    intro hmod hlt
    have hr : rest.length % 8 = 0 := by
      simp only [List.length_cons] at hmod
      omega
    have hltr : ∀ x ∈ rest, x < 256 := fun x hx => hlt x (by simp [hx])
    rw [wordsOfBytes]
    simp only [bytesOfWords, List.map_cons, List.flatten_cons]
    rw [fromWord_le b0 b1 b2 b3 b4 b5 b6 b7 (hlt b0 (by simp)) (hlt b1 (by simp))
      (hlt b2 (by simp)) (hlt b3 (by simp)) (hlt b4 (by simp)) (hlt b5 (by simp))
      (hlt b6 (by simp)) (hlt b7 (by simp))]
    have := ih hr hltr
    simp only [bytesOfWords] at this
    rw [this]
    rfl
  | case2 bs h =>
    intro hmod _
    rcases bs with _ | ⟨b0, _ | ⟨b1, _ | ⟨b2, _ | ⟨b3, _ | ⟨b4, _ | ⟨b5, _ | ⟨b6, _ | ⟨b7, rest⟩⟩⟩⟩⟩⟩⟩⟩
    · rfl
    · simp at hmod
    · simp at hmod
    · simp at hmod
    · simp at hmod
    · simp at hmod
    · simp at hmod
    · simp at hmod
    · exact absurd rfl (h b0 b1 b2 b3 b4 b5 b6 b7 rest)

theorem chunkSize_mod8 : chunkSize % 8 = 0 := by decide

theorem splitChunks_nil : splitChunks [] = [] := by
  rw [splitChunks]
  simp

theorem splitChunks_cons (s : List Nat) (h : s ≠ []) :
    splitChunks s = s.take chunkSize :: splitChunks (s.drop chunkSize) := by
  rw [splitChunks]
  simp [h]

theorem splitChunks_ne_nil (s : List Nat) (h : s ≠ []) : splitChunks s ≠ [] := by
  rw [splitChunks_cons s h]
  simp

theorem splitChunks_flatten (s : List Nat) : (splitChunks s).flatten = s := by
  induction s using splitChunks.induct with
  | case1 =>
    rw [splitChunks_nil]
    rfl
  | case2 s h ih =>
    rw [splitChunks_cons s h]
    simp only [List.flatten_cons, ih, List.take_append_drop]

theorem mem_of_mem_splitChunks (s c : List Nat) (hc : c ∈ splitChunks s) :
    ∀ x ∈ c, x ∈ s := by
  intro x hx
  have : x ∈ (splitChunks s).flatten := List.mem_flatten.mpr ⟨c, hc, hx⟩
  rwa [splitChunks_flatten] at this

theorem getLastD_irrel {α : Type} (l : List α) (a b : α) (h : l ≠ []) :
    l.getLastD a = l.getLastD b := by
  rw [List.getLastD_eq_getLast?, List.getLastD_eq_getLast?, List.getLast?_eq_getLast l h]
  rfl

theorem splitChunks_payload (s : List Nat) :
    ∃ padding, ((splitChunks s).map writeChunkBytes).flatten = s ++ padding ∧
      padding.length = (8 - (lastChunkLen s) % 8) % 8 := by
  induction s using splitChunks.induct with
  | case1 =>
    refine ⟨[], ?_, ?_⟩
    · rw [splitChunks_nil]
      rfl
    · simp [lastChunkLen, splitChunks_nil]
  | case2 s h ih =>
    by_cases hd : s.drop chunkSize = []
    · have hle : s.length ≤ chunkSize := by
        have := congrArg List.length hd
        simp only [List.length_drop, List.length_nil] at this
        omega
      have hsplit : splitChunks s = [s] := by
        rw [splitChunks_cons s h, hd, splitChunks_nil, List.take_of_length_le hle]
      obtain ⟨padding, hpad, hlen⟩ := writeChunkBytes_decomp s
      refine ⟨padding, ?_, ?_⟩
      · rw [hsplit]
        simp only [List.map_cons, List.map_nil, List.flatten_cons, List.flatten_nil,
          List.append_nil]
        exact hpad
      · rw [hlen, lastChunkLen, hsplit]
        rfl
    · obtain ⟨padding, hpad, hlen⟩ := ih
      have hlen_gt : chunkSize < s.length := by
        by_contra hle
        exact hd (List.drop_eq_nil_of_le (by omega))
      have htake : (s.take chunkSize).length = chunkSize := by
        rw [List.length_take]
        omega
      obtain ⟨padding0, hpad0, hlen0⟩ := writeChunkBytes_decomp (s.take chunkSize)
      have hpadding0 : padding0 = [] := by
        rw [htake, chunkSize_mod8] at hlen0
        exact List.length_eq_zero.mp hlen0
      refine ⟨padding, ?_, ?_⟩
      · rw [splitChunks_cons s h]
        simp only [List.map_cons, List.flatten_cons]
        rw [hpad0, hpadding0, List.append_nil, hpad, ← List.append_assoc,
          List.take_append_drop]
      · rw [hlen]
        have hlast : lastChunkLen s = lastChunkLen (s.drop chunkSize) := by
          rw [lastChunkLen, lastChunkLen, splitChunks_cons s h, List.getLastD_cons,
            getLastD_irrel _ _ _ (splitChunks_ne_nil _ hd)]
        rw [hlast]

theorem writeChunkBytes_len_mod8 (c : List Nat) : (writeChunkBytes c).length % 8 = 0 := by
  obtain ⟨padding, hpad, hlen⟩ := writeChunkBytes_decomp c
  rw [hpad, List.length_append, hlen]
  omega

theorem reconstruct_chunkWordLists (s : List Nat) (hs : ∀ x ∈ s, x < 256) :
    reconstruct (chunkWordLists s) (lastChunkLen s) = s := by
  have hmap : (chunkWordLists s).map bytesOfWords = (splitChunks s).map writeChunkBytes := by
    rw [chunkWordLists, List.map_map]
    apply List.map_congr_left
    intro c hc
    exact bytesOfWords_wordsOfBytes (writeChunkBytes c) (writeChunkBytes_len_mod8 c)
      (writeChunkBytes_lt c (fun y hy => hs y (mem_of_mem_splitChunks s c hc y hy)))
  obtain ⟨padding, hpad, hlen⟩ := splitChunks_payload s
  simp only [reconstruct]
  rw [hmap, hpad, List.length_append, hlen]
  have harith : s.length + (8 - lastChunkLen s % 8) % 8 - (8 - lastChunkLen s % 8) % 8 =
      s.length := by omega
  rw [harith, List.take_left]

/-- Claim C1: chunk round-trip with manifest fidelity.  For every input blob,
concatenating the emitted chunk payloads in chunk-index order, stripping the
trailing pad inferred from the final chunk's actual compressed byte count and
decompressing yields exactly the blob, and the manifest's `decompressedSize`
equals the blob's length.  The external gzip compressor is abstract: any
compressor/decompressor pair satisfying the lossless round-trip contract and
producing a byte stream. -/
theorem chunk_roundtrip_manifest (B : List Nat) (comp decomp : List Nat → List Nat)
    (hround : ∀ b, decomp (comp b) = b) (hbytes : ∀ x ∈ comp B, x < 256) :
    decomp (reconstruct (chunkWordLists (comp B)) (lastChunkLen (comp B))) = B ∧
    manifestDecompressedSize B = B.length := by
  constructor
  · rw [reconstruct_chunkWordLists _ hbytes, hround]
  · rfl

/-- Witness for C1 at a concrete blob with the identity compressor. -/
theorem chunk_roundtrip_manifest_witness :
    idList (reconstruct (chunkWordLists (idList [3, 141, 59])) (lastChunkLen (idList [3, 141, 59]))) =
      [3, 141, 59] ∧ manifestDecompressedSize [3, 141, 59] = [3, 141, 59].length :=
  chunk_roundtrip_manifest [3, 141, 59] idList idList (fun _ => rfl) (by decide)

theorem splitChunks_sizes : ∀ s : List Nat, s ≠ [] →
    (splitChunks s).length = (s.length + chunkSize - 1) / chunkSize ∧
    (∀ c ∈ (splitChunks s).dropLast, c.length = chunkSize) ∧
    ((splitChunks s).getLastD []).length =
      s.length - ((s.length + chunkSize - 1) / chunkSize - 1) * chunkSize ∧
    (∀ c ∈ splitChunks s, c.length ≤ chunkSize) := by
  intro s
  induction s using splitChunks.induct with
  | case1 =>
    intro h
    exact absurd rfl h
  | case2 s h ih =>
    intro _
    have hpos : 0 < s.length := List.length_pos.mpr h
    by_cases hd : s.drop chunkSize = []
    · have hle : s.length ≤ chunkSize := by
        have := congrArg List.length hd
        simp only [List.length_drop, List.length_nil] at this
        simp only [chunkSize] at this ⊢
        omega
      have hsplit : splitChunks s = [s] := by
        rw [splitChunks_cons s h, hd, splitChunks_nil, List.take_of_length_le hle]
      rw [hsplit]
      refine ⟨?_, ?_, ?_, ?_⟩
      · simp only [List.length_cons, List.length_nil, chunkSize] at hle ⊢
        omega
      · intro c hc
        simp at hc
      · simp only [List.getLastD_cons, List.getLastD_nil, chunkSize] at hle ⊢
        omega
      · intro c hc
        simp only [List.mem_cons, List.not_mem_nil, or_false] at hc
        rw [hc]
        exact hle
    · have hgt : chunkSize < s.length := by
        by_contra hle
        exact hd (List.drop_eq_nil_of_le (by omega))
      obtain ⟨ih1, ih2, ih3, ih4⟩ := ih hd
      have hdnil : splitChunks (s.drop chunkSize) ≠ [] := splitChunks_ne_nil _ hd
      have htake : (s.take chunkSize).length = chunkSize := by
        rw [List.length_take]
        omega
      rw [splitChunks_cons s h]
      simp only [List.length_drop] at ih1 ih3
      refine ⟨?_, ?_, ?_, ?_⟩
      · simp only [List.length_cons, ih1]
        simp only [chunkSize] at hgt ⊢
        omega
      · intro c hc
        rw [List.dropLast_cons_of_ne_nil hdnil] at hc
        rcases List.mem_cons.mp hc with hc | hc
        · rw [hc]
          exact htake
        · exact ih2 c hc
      · rw [List.getLastD_cons, getLastD_irrel _ _ _ hdnil, ih3]
        simp only [chunkSize] at hgt ⊢
        omega
      · intro c hc
        rcases List.mem_cons.mp hc with hc | hc
        · rw [hc, htake]
        · exact ih4 c hc

/-- Claim C8: for a nonempty compressed stream of length L the encoder emits
exactly ceil(L / M) chunks with M = 20*1024*1024; every chunk except the last
has pre-pad payload length exactly M, the last has length
L - (ceil(L / M) - 1) * M, and no pre-pad payload exceeds M.  This also covers
the case that L is an exact multiple of M (no trailing empty chunk). -/
theorem chunk_count_size_bound (s : List Nat) (hpos : 0 < s.length) :
    (splitChunks s).length = (s.length + chunkSize - 1) / chunkSize ∧
    (∀ c ∈ (splitChunks s).dropLast, c.length = chunkSize) ∧
    ((splitChunks s).getLastD []).length =
      s.length - ((s.length + chunkSize - 1) / chunkSize - 1) * chunkSize ∧
    (∀ c ∈ splitChunks s, c.length ≤ chunkSize) :=
  splitChunks_sizes s (by
    intro hnil
    rw [hnil] at hpos
    simp at hpos)

/-- Witness for C8 at a concrete three-byte stream (one chunk). -/
theorem chunk_count_size_bound_witness :
    (splitChunks [7, 8, 9]).length = (([7, 8, 9] : List Nat).length + chunkSize - 1) / chunkSize ∧
    (∀ c ∈ (splitChunks [7, 8, 9]).dropLast, c.length = chunkSize) ∧
    ((splitChunks [7, 8, 9]).getLastD []).length =
      ([7, 8, 9] : List Nat).length -
        ((([7, 8, 9] : List Nat).length + chunkSize - 1) / chunkSize - 1) * chunkSize ∧
    (∀ c ∈ splitChunks [7, 8, 9], c.length ≤ chunkSize) :=
  chunk_count_size_bound [7, 8, 9] (by decide)

/-- A 4097-byte chunk segment: 4096 bytes 0xFF followed by a single 0xAA.
`writeChunk` fills its scratch array with the 0xFF block, then reads the
final 0xAA and must pad with 7 bytes — but zeroes only four of them. -/
def staleChunk : List Nat := List.replicate 4096 255 ++ [170]

/-- Claim C4 (refuting evaluation): on `staleChunk` the emitted payload pads
the final byte with `[0, 0, 0, 0, 255, 255, 255]` — the last three pad bytes
are stale 0xFF bytes left over from the previous buffer fill, not zeros,
because the source copies only `[]byte{0, 0, 0, 0}` over the pad region. -/
theorem chunk_pad_stale :
    writeChunkBytes staleChunk = staleChunk ++ [0, 0, 0, 0, 255, 255, 255] := by
  have hlen : staleChunk.length = 4097 := by
    rw [staleChunk, List.length_append, List.length_replicate]
    rfl
  have h1 : staleChunk.take 4096 = List.replicate 4096 255 :=
    List.take_left' (by rw [List.length_replicate])
  have h2 : staleChunk.drop 4096 = [170] :=
    List.drop_left' (by rw [List.length_replicate])
  have hinner : writeChunkLoop (List.replicate 4096 255) [170] =
      [170, 0, 0, 0, 0, 255, 255, 255] := by
    rw [writeChunkLoop, if_neg (by simp), if_neg (by simp), if_neg (by simp)]
    norm_num
    rw [List.take_append_eq_append_take, List.take_replicate, List.take_replicate]
    norm_num
    decide
  rw [writeChunkBytes, writeChunkLoop, if_neg (by omega), if_pos (by omega), h1, h2, hinner,
    staleChunk, List.append_assoc]
  exact congrArg (List.replicate 4096 255 ++ ·) (by decide)

/-- A compressor shaped like gzip: lossless, but with a mandatory two-byte
header, so the empty blob compresses to a nonempty stream (every real gzip
stream begins with the magic bytes 31, 139 and is never empty). -/
def mockCompress (b : List Nat) : List Nat := 31 :: 139 :: b

/-- The matching decompressor for `mockCompress`. -/
def mockDecompress (s : List Nat) : List Nat := s.drop 2

/-- Claim C5 counterexample: with a lossless compressor that (like gzip) emits
a nonempty stream for the empty blob, encoding the empty blob produces one
chunk artifact, not zero: `generateChunks` chunks the compressed stream, not
the blob. -/
theorem empty_blob_chunk_counterexample :
    (∀ b, mockDecompress (mockCompress b) = b) ∧
    (chunkWordLists (mockCompress [])).length = 1 := by
  constructor
  · intro b
    rfl
  · have h1 : splitChunks [31, 139] = [[31, 139]] := by
      rw [splitChunks_cons _ (by simp), List.drop_eq_nil_of_le (by simp [chunkSize]),
        splitChunks_nil, List.take_of_length_le (by simp [chunkSize])]
    simp [chunkWordLists, mockCompress, h1]

/-- Claim C5 (amended): the encoder emits zero chunk artifacts exactly when the
compressed stream is empty, and the manifest declares the blob's own length as
the decompressed size (zero for an empty blob).  An empty input blob does not
compress to an empty stream under gzip, so it yields one chunk. -/
theorem empty_stream_zero_chunks (B s : List Nat) :
    (chunkWordLists s = [] ↔ s = []) ∧ manifestDecompressedSize B = B.length := by
  refine ⟨⟨?_, ?_⟩, rfl⟩
  · intro hch
    by_contra hs
    have : splitChunks s = [] := by
      rwa [chunkWordLists, List.map_eq_nil_iff] at hch
    exact splitChunks_ne_nil s hs this
  · intro hs
    rw [hs, chunkWordLists, splitChunks_nil]
    rfl

/-! ### Font selector (src/main.go, descDistance and appendMatchingFonts) -/

/-- One discovered source font (struct `fontDesc`): the filename and the four
axis indices.  Go `int` is modelled as `Int`. -/
structure fontDesc where
  filename : List Char
  weight : Int
  hDensity : Int
  vDensity : Int
  style : Int
deriving DecidableEq

/-- The negate-if-negative idiom used four times inside `descDistance`. -/
def absInt (x : Int) : Int := if x < 0 then -x else x

/-- The weighted distance measure of the `descDistance` closure
(src/main.go lines 297-319).  The Go constants `1e14`, `1e12`, ... are exact
float literals converted to `int64`; no intermediate value can overflow
`int64` for any argument in the enumeration ranges, and the formula below is
their exact integer value. -/
def descDistance (weight hDensity vDensity style : Int) (d : fontDesc) : Int :=
  let weightDist := absInt (weight - d.weight)
  let hDensityDist := absInt (hDensity - d.hDensity)
  let vDensityDist := absInt (vDensity - d.vDensity)
  let styleDist := absInt (style - d.style)
  100000000000000 * styleDist + 1000000000000 * weightDist + 10000000000 * hDensityDist +
    100000000 * vDensityDist - 1000000 * d.style - 10000 * d.weight - 100 * d.hDensity -
    d.vDensity

/-- The per-descriptor comparison tuple named by claim C2: per-axis distances
in priority order, then the bias preferring larger raw indices. -/
def lexKey (weight hDensity vDensity style : Int) (d : fontDesc) : List Int :=
  [absInt (style - d.style), absInt (weight - d.weight), absInt (hDensity - d.hDensity),
   absInt (vDensity - d.vDensity), -d.style, -d.weight, -d.hDensity, -d.vDensity]

/-- Strict lexicographic order on equal-length integer tuples. -/
def lexLt : List Int → List Int → Prop
  | a :: as, b :: bs => a < b ∨ (a = b ∧ lexLt as bs)
  | _, _ => False

theorem lexLt_cons_eq (a b : Int) (as bs : List Int) :
    lexLt (a :: as) (b :: bs) = (a < b ∨ (a = b ∧ lexLt as bs)) := rfl

theorem lexLt_nil_eq : lexLt [] [] = False := rfl

/-- Axis indices a classified descriptor can carry: weight 0-9, horizontal
density 0-3, vertical density 0-1, style 0-1. -/
def descInRange (d : fontDesc) : Prop :=
  0 ≤ d.weight ∧ d.weight ≤ 9 ∧ 0 ≤ d.hDensity ∧ d.hDensity ≤ 3 ∧
  0 ≤ d.vDensity ∧ d.vDensity ≤ 1 ∧ 0 ≤ d.style ∧ d.style ≤ 1

/-- Target tuples drawn from the same fixed enumerations. -/
def targetInRange (weight hDensity vDensity style : Int) : Prop :=
  0 ≤ weight ∧ weight ≤ 9 ∧ 0 ≤ hDensity ∧ hDensity ≤ 3 ∧
  0 ≤ vDensity ∧ vDensity ≤ 1 ∧ 0 ≤ style ∧ style ≤ 1

instance (d : fontDesc) : Decidable (descInRange d) := by
  unfold descInRange
  infer_instance

instance (w h v s : Int) : Decidable (targetInRange w h v s) := by
  unfold targetInRange
  infer_instance

theorem absInt_diff_le (a b B : Int) (ha : 0 ≤ a) (ha' : a ≤ B) (hb : 0 ≤ b) (hb' : b ≤ B) :
    0 ≤ absInt (a - b) ∧ absInt (a - b) ≤ B := by
  unfold absInt
  split_ifs <;> omega

theorem weighted_lex_iff (sd1 wd1 hd1 vd1 s1 w1 h1 v1 sd2 wd2 hd2 vd2 s2 w2 h2 v2 : Int)
    (hsd1 : 0 ≤ sd1 ∧ sd1 ≤ 1) (hwd1 : 0 ≤ wd1 ∧ wd1 ≤ 9) (hhd1 : 0 ≤ hd1 ∧ hd1 ≤ 3)
    (hvd1 : 0 ≤ vd1 ∧ vd1 ≤ 1) (hs1 : 0 ≤ s1 ∧ s1 ≤ 1) (hw1 : 0 ≤ w1 ∧ w1 ≤ 9)
    (hh1 : 0 ≤ h1 ∧ h1 ≤ 3) (hv1 : 0 ≤ v1 ∧ v1 ≤ 1)
    (hsd2 : 0 ≤ sd2 ∧ sd2 ≤ 1) (hwd2 : 0 ≤ wd2 ∧ wd2 ≤ 9) (hhd2 : 0 ≤ hd2 ∧ hd2 ≤ 3)
    (hvd2 : 0 ≤ vd2 ∧ vd2 ≤ 1) (hs2 : 0 ≤ s2 ∧ s2 ≤ 1) (hw2 : 0 ≤ w2 ∧ w2 ≤ 9)
    (hh2 : 0 ≤ h2 ∧ h2 ≤ 3) (hv2 : 0 ≤ v2 ∧ v2 ≤ 1) :
    (100000000000000 * sd1 + 1000000000000 * wd1 + 10000000000 * hd1 + 100000000 * vd1
      - 1000000 * s1 - 10000 * w1 - 100 * h1 - v1
     < 100000000000000 * sd2 + 1000000000000 * wd2 + 10000000000 * hd2 + 100000000 * vd2
      - 1000000 * s2 - 10000 * w2 - 100 * h2 - v2)
    ↔ (sd1 < sd2 ∨ (sd1 = sd2 ∧ (wd1 < wd2 ∨ (wd1 = wd2 ∧ (hd1 < hd2 ∨ (hd1 = hd2 ∧
        (vd1 < vd2 ∨ (vd1 = vd2 ∧ (-s1 < -s2 ∨ (-s1 = -s2 ∧ (-w1 < -w2 ∨ (-w1 = -w2 ∧
        (-h1 < -h2 ∨ (-h1 = -h2 ∧ -v1 < -v2)))))))))))))) := by
  omega

theorem weighted_eq_iff (sd1 wd1 hd1 vd1 s1 w1 h1 v1 sd2 wd2 hd2 vd2 s2 w2 h2 v2 : Int)
    (hsd1 : 0 ≤ sd1 ∧ sd1 ≤ 1) (hwd1 : 0 ≤ wd1 ∧ wd1 ≤ 9) (hhd1 : 0 ≤ hd1 ∧ hd1 ≤ 3)
    (hvd1 : 0 ≤ vd1 ∧ vd1 ≤ 1) (hs1 : 0 ≤ s1 ∧ s1 ≤ 1) (hw1 : 0 ≤ w1 ∧ w1 ≤ 9)
    (hh1 : 0 ≤ h1 ∧ h1 ≤ 3) (hv1 : 0 ≤ v1 ∧ v1 ≤ 1)
    (hsd2 : 0 ≤ sd2 ∧ sd2 ≤ 1) (hwd2 : 0 ≤ wd2 ∧ wd2 ≤ 9) (hhd2 : 0 ≤ hd2 ∧ hd2 ≤ 3)
    (hvd2 : 0 ≤ vd2 ∧ vd2 ≤ 1) (hs2 : 0 ≤ s2 ∧ s2 ≤ 1) (hw2 : 0 ≤ w2 ∧ w2 ≤ 9)
    (hh2 : 0 ≤ h2 ∧ h2 ≤ 3) (hv2 : 0 ≤ v2 ∧ v2 ≤ 1) :
    (100000000000000 * sd1 + 1000000000000 * wd1 + 10000000000 * hd1 + 100000000 * vd1
      - 1000000 * s1 - 10000 * w1 - 100 * h1 - v1
     = 100000000000000 * sd2 + 1000000000000 * wd2 + 10000000000 * hd2 + 100000000 * vd2
      - 1000000 * s2 - 10000 * w2 - 100 * h2 - v2)
    ↔ (sd1 = sd2 ∧ wd1 = wd2 ∧ hd1 = hd2 ∧ vd1 = vd2 ∧ s1 = s2 ∧ w1 = w2 ∧ h1 = h2 ∧
        v1 = v2) := by
  constructor
  · intro heq
    have e1 : sd1 = sd2 := by omega
    subst e1
    have e2 : wd1 = wd2 := by omega
    subst e2
    have e3 : hd1 = hd2 := by omega
    subst e3
    have e4 : vd1 = vd2 := by omega
    subst e4
    have e5 : s1 = s2 := by omega
    subst e5
    have e6 : w1 = w2 := by omega
    subst e6
    have e7 : h1 = h2 := by omega
    subst e7
    have e8 : v1 = v2 := by omega
    subst e8
    exact ⟨rfl, rfl, rfl, rfl, rfl, rfl, rfl, rfl⟩
  · rintro ⟨rfl, rfl, rfl, rfl, rfl, rfl, rfl, rfl⟩
    rfl

/-- Claim C2: for the fixed axis enumerations and every in-range target tuple
and pair of in-range descriptors, the weighted scalar distance compares
exactly like the lexicographic comparison of the per-axis distance tuple
followed by the larger-raw-index bias: no combination of lower-priority
differences ever closes a gap opened by a higher-priority difference. -/
theorem descDistance_lex_equiv (weight hDensity vDensity style : Int) (d1 d2 : fontDesc)
    (ht : targetInRange weight hDensity vDensity style)
    (h1 : descInRange d1) (h2 : descInRange d2) :
    descDistance weight hDensity vDensity style d1 <
        descDistance weight hDensity vDensity style d2 ↔
      lexLt (lexKey weight hDensity vDensity style d1)
        (lexKey weight hDensity vDensity style d2) := by
  obtain ⟨htw, htw', hth, hth', htv, htv', hts, hts'⟩ := ht
  obtain ⟨h1w, h1w', h1h, h1h', h1v, h1v', h1s, h1s'⟩ := h1
  obtain ⟨h2w, h2w', h2h, h2h', h2v, h2v', h2s, h2s'⟩ := h2
  simp only [descDistance, lexKey, lexLt_cons_eq, lexLt_nil_eq, and_false, or_false]
  exact weighted_lex_iff _ _ _ _ _ _ _ _ _ _ _ _ _ _ _ _
    (absInt_diff_le style d1.style 1 hts hts' h1s h1s')
    (absInt_diff_le weight d1.weight 9 htw htw' h1w h1w')
    (absInt_diff_le hDensity d1.hDensity 3 hth hth' h1h h1h')
    (absInt_diff_le vDensity d1.vDensity 1 htv htv' h1v h1v')
    ⟨h1s, h1s'⟩ ⟨h1w, h1w'⟩ ⟨h1h, h1h'⟩ ⟨h1v, h1v'⟩
    (absInt_diff_le style d2.style 1 hts hts' h2s h2s')
    (absInt_diff_le weight d2.weight 9 htw htw' h2w h2w')
    (absInt_diff_le hDensity d2.hDensity 3 hth hth' h2h h2h')
    (absInt_diff_le vDensity d2.vDensity 1 htv htv' h2v h2v')
    ⟨h2s, h2s'⟩ ⟨h2w, h2w'⟩ ⟨h2h, h2h'⟩ ⟨h2v, h2v'⟩

/-- Two in-range descriptors at the same distance from an in-range target
have identical axis tuples (the bias terms pin every axis). -/
theorem descDistance_inj (weight hDensity vDensity style : Int) (d1 d2 : fontDesc)
    (ht : targetInRange weight hDensity vDensity style)
    (h1 : descInRange d1) (h2 : descInRange d2)
    (heq : descDistance weight hDensity vDensity style d1 =
      descDistance weight hDensity vDensity style d2) :
    d1.style = d2.style ∧ d1.weight = d2.weight ∧ d1.hDensity = d2.hDensity ∧
      d1.vDensity = d2.vDensity := by
  obtain ⟨htw, htw', hth, hth', htv, htv', hts, hts'⟩ := ht
  obtain ⟨h1w, h1w', h1h, h1h', h1v, h1v', h1s, h1s'⟩ := h1
  obtain ⟨h2w, h2w', h2h, h2h', h2v, h2v', h2s, h2s'⟩ := h2
  simp only [descDistance] at heq
  have := (weighted_eq_iff _ _ _ _ _ _ _ _ _ _ _ _ _ _ _ _
    (absInt_diff_le style d1.style 1 hts hts' h1s h1s')
    (absInt_diff_le weight d1.weight 9 htw htw' h1w h1w')
    (absInt_diff_le hDensity d1.hDensity 3 hth hth' h1h h1h')
    (absInt_diff_le vDensity d1.vDensity 1 htv htv' h1v h1v')
    ⟨h1s, h1s'⟩ ⟨h1w, h1w'⟩ ⟨h1h, h1h'⟩ ⟨h1v, h1v'⟩
    (absInt_diff_le style d2.style 1 hts hts' h2s h2s')
    (absInt_diff_le weight d2.weight 9 htw htw' h2w h2w')
    (absInt_diff_le hDensity d2.hDensity 3 hth hth' h2h h2h')
    (absInt_diff_le vDensity d2.vDensity 1 htv htv' h2v h2v')
    ⟨h2s, h2s'⟩ ⟨h2w, h2w'⟩ ⟨h2h, h2h'⟩ ⟨h2v, h2v'⟩).mp heq
  exact ⟨this.2.2.2.2.1, this.2.2.2.2.2.1, this.2.2.2.2.2.2.1, this.2.2.2.2.2.2.2⟩

/-- The selection loop of `appendMatchingFonts` (src/main.go lines 320-326):
`match`/`matchDist` start as nil and are replaced exactly when a strictly
smaller distance appears. -/
def selectLoop (weight hDensity vDensity style : Int) :
    List fontDesc → Option (fontDesc × Int) → Option (fontDesc × Int)
  | [], acc => acc
  | d :: rest, acc =>
      match acc with
      | none => selectLoop weight hDensity vDensity style rest
          (some (d, descDistance weight hDensity vDensity style d))
      | some (m, md) =>
          if descDistance weight hDensity vDensity style d < md then
            selectLoop weight hDensity vDensity style rest
              (some (d, descDistance weight hDensity vDensity style d))
          else selectLoop weight hDensity vDensity style rest (some (m, md))

/-- The descriptor `appendMatchingFonts` would append, if any. -/
def findMatch (descriptions : List fontDesc) (weight hDensity vDensity style : Int) :
    Option fontDesc :=
  (selectLoop weight hDensity vDensity style descriptions none).map Prod.fst

/-- `appendMatchingFonts` (src/main.go lines 294-331): appends the minimum
distance descriptor to `out`, or returns `out` unchanged when the candidate
list is empty. -/
def appendMatchingFonts (out descriptions : List fontDesc)
    (weight hDensity vDensity style : Int) : List fontDesc :=
  match findMatch descriptions weight hDensity vDensity style with
  | none => out
  | some m => out ++ [m]

theorem selectLoop_some (weight hDensity vDensity style : Int) :
    ∀ (rest : List fontDesc) (m0 : fontDesc),
      ∃ m, selectLoop weight hDensity vDensity style rest
          (some (m0, descDistance weight hDensity vDensity style m0)) =
          some (m, descDistance weight hDensity vDensity style m) ∧
        (m = m0 ∨ m ∈ rest) ∧
        descDistance weight hDensity vDensity style m ≤
          descDistance weight hDensity vDensity style m0 ∧
        ∀ d ∈ rest, descDistance weight hDensity vDensity style m ≤
          descDistance weight hDensity vDensity style d := by
  intro rest
  induction rest with
  | nil =>
    intro m0
    exact ⟨m0, rfl, Or.inl rfl, le_refl _, by simp⟩
  | cons d rest ih =>
    intro m0
    by_cases hlt : descDistance weight hDensity vDensity style d <
        descDistance weight hDensity vDensity style m0
    · obtain ⟨m, hm, hmem, hle, hall⟩ := ih d
      refine ⟨m, ?_, ?_, ?_, ?_⟩
      · rw [selectLoop]
        simp only [if_pos hlt]
        exact hm
      · rcases hmem with h | h
        · exact Or.inr (by rw [h]; exact List.mem_cons_self d rest)
        · exact Or.inr (List.mem_cons_of_mem d h)
      · exact le_of_lt (lt_of_le_of_lt hle hlt)
      · intro d' hd'
        rcases List.mem_cons.mp hd' with h | h
        · rw [h]
          exact hle
        · exact hall d' h
    · obtain ⟨m, hm, hmem, hle, hall⟩ := ih m0
      refine ⟨m, ?_, ?_, ?_, ?_⟩
      · rw [selectLoop]
        simp only [if_neg hlt]
        exact hm
      · rcases hmem with h | h
        · exact Or.inl h
        · exact Or.inr (List.mem_cons_of_mem d h)
      · exact hle
      · intro d' hd'
        rcases List.mem_cons.mp hd' with h | h
        · rw [h]
          exact le_trans hle (not_lt.mp hlt)
        · exact hall d' h

theorem findMatch_nil (weight hDensity vDensity style : Int) :
    findMatch [] weight hDensity vDensity style = none := rfl

theorem findMatch_spec (l : List fontDesc) (weight hDensity vDensity style : Int)
    (hne : l ≠ []) :
    ∃ m, findMatch l weight hDensity vDensity style = some m ∧ m ∈ l ∧
      ∀ d ∈ l, descDistance weight hDensity vDensity style m ≤
        descDistance weight hDensity vDensity style d := by
  match l, hne with
  | d :: rest, _ =>
    obtain ⟨m, hm, hmem, hle, hall⟩ := selectLoop_some weight hDensity vDensity style rest d
    refine ⟨m, ?_, ?_, ?_⟩
    · rw [findMatch, selectLoop, hm]
      rfl
    · rcases hmem with h | h
      · rw [h]
        exact List.mem_cons_self d rest
      · exact List.mem_cons_of_mem d h
    · intro d' hd'
      rcases List.mem_cons.mp hd' with h | h
      · rw [h]
        exact hle
      · exact hall d' h

/-- Claim C7: for every nonempty candidate list exactly one descriptor is
appended and no candidate has strictly lower distance than it; for an empty
candidate list the output list is returned unchanged. -/
theorem selector_uniqueness (out l : List fontDesc) (weight hDensity vDensity style : Int) :
    (l = [] → appendMatchingFonts out l weight hDensity vDensity style = out) ∧
    (l ≠ [] → ∃ m, appendMatchingFonts out l weight hDensity vDensity style = out ++ [m] ∧
      m ∈ l ∧ ∀ d ∈ l, ¬ descDistance weight hDensity vDensity style d <
        descDistance weight hDensity vDensity style m) := by
  constructor
  · intro hl
    rw [hl]
    rfl
  · intro hne
    obtain ⟨m, hm, hmem, hall⟩ := findMatch_spec l weight hDensity vDensity style hne
    refine ⟨m, ?_, hmem, fun d hd => not_lt.mpr (hall d hd)⟩
    rw [appendMatchingFonts, hm]

/-- Concrete descriptor: regular weight, default densities and style. -/
def cdA : fontDesc := ⟨['a'], 4, 3, 1, 0⟩

/-- Same axes as `cdA` but a different filename. -/
def cdB : fontDesc := ⟨['b'], 4, 3, 1, 0⟩

/-- A descriptor with a distinct axis tuple. -/
def cdC : fontDesc := ⟨['c'], 5, 2, 1, 1⟩

/-- Another descriptor with a distinct axis tuple. -/
def cdD : fontDesc := ⟨['d'], 5, 3, 1, 0⟩

/-- Witness for C2 at a concrete target and pair of descriptors. -/
theorem descDistance_lex_equiv_witness :
    targetInRange 4 3 1 0 ∧ descInRange cdA ∧ descInRange cdC ∧
    (descDistance 4 3 1 0 cdA < descDistance 4 3 1 0 cdC ↔
      lexLt (lexKey 4 3 1 0 cdA) (lexKey 4 3 1 0 cdC)) :=
  ⟨by decide, by decide, by decide,
    descDistance_lex_equiv 4 3 1 0 cdA cdC (by decide) (by decide) (by decide)⟩

/-- Witness for C7 at a concrete nonempty candidate list. -/
theorem selector_uniqueness_witness :
    ([cdA] : List fontDesc) ≠ [] ∧
    (∃ m, appendMatchingFonts [] [cdA] 4 3 1 0 = [] ++ [m] ∧ m ∈ [cdA] ∧
      ∀ d ∈ [cdA], ¬ descDistance 4 3 1 0 d < descDistance 4 3 1 0 m) :=
  ⟨by decide, (selector_uniqueness [] [cdA] 4 3 1 0).2 (by decide)⟩

/-- Claim C6 counterexample: two candidate lists containing the same set of
descriptors, in different order, from which `appendMatchingFonts` selects
different descriptors — `cdA` and `cdB` agree on every axis but carry
different filenames, so they tie in distance and the loop keeps whichever
comes first. -/
theorem select_order_dependent :
    (∀ d : fontDesc, d ∈ [cdA, cdB] ↔ d ∈ [cdB, cdA]) ∧
    appendMatchingFonts [] [cdA, cdB] 4 3 1 0 ≠
      appendMatchingFonts [] [cdB, cdA] 4 3 1 0 := by
  constructor
  · intro d
    simp only [List.mem_cons, List.not_mem_nil, or_false]
    exact or_comm
  · decide

/-- Claim C6 (amended): selection depends only on the candidate membership set
and the target provided the target and all candidates are in range and no two
distinct candidates share the same axis tuple (as when every source font
appears once); two lists with the same membership then yield the same
appended descriptor. -/
theorem select_set_deterministic (weight hDensity vDensity style : Int)
    (l1 l2 : List fontDesc) (hmem : ∀ d, d ∈ l1 ↔ d ∈ l2)
    (ht : targetInRange weight hDensity vDensity style)
    (hr : ∀ d ∈ l1, descInRange d)
    (hinj : ∀ a ∈ l1, ∀ b ∈ l1, a.style = b.style → a.weight = b.weight →
      a.hDensity = b.hDensity → a.vDensity = b.vDensity → a = b) :
    appendMatchingFonts [] l1 weight hDensity vDensity style =
      appendMatchingFonts [] l2 weight hDensity vDensity style := by
  by_cases h1 : l1 = []
  · have h2 : l2 = [] := by
      subst h1
      cases l2 with
      | nil => rfl
      | cons d rest =>
        exact absurd ((hmem d).mpr (List.mem_cons_self d rest)) (List.not_mem_nil d)
    rw [h1, h2]
  · have h2 : l2 ≠ [] := by
      intro hl2
      obtain ⟨d, hd⟩ := List.exists_mem_of_ne_nil l1 h1
      rw [hl2] at hmem
      exact List.not_mem_nil d ((hmem d).mp hd)
    obtain ⟨m1, hm1, hmem1, hall1⟩ :=
      findMatch_spec l1 weight hDensity vDensity style h1
    obtain ⟨m2, hm2, hmem2, hall2⟩ :=
      findMatch_spec l2 weight hDensity vDensity style h2
    have hm2l1 : m2 ∈ l1 := (hmem m2).mpr hmem2
    have hm1l2 : m1 ∈ l2 := (hmem m1).mp hmem1
    have heq : descDistance weight hDensity vDensity style m1 =
        descDistance weight hDensity vDensity style m2 :=
      le_antisymm (hall1 m2 hm2l1) (hall2 m1 hm1l2)
    obtain ⟨hs, hw, hh, hv⟩ := descDistance_inj weight hDensity vDensity style m1 m2 ht
      (hr m1 hmem1) (hr m2 hm2l1) heq
    have hm12 : m1 = m2 := hinj m1 hmem1 m2 hm2l1 hs hw hh hv
    rw [appendMatchingFonts, appendMatchingFonts, hm1, hm2, hm12]

/-- Witness for C6 (amended) on two permuted lists with distinct axis tuples. -/
theorem select_set_deterministic_witness :
    appendMatchingFonts [] [cdA, cdD] 4 3 1 0 =
      appendMatchingFonts [] [cdD, cdA] 4 3 1 0 :=
  select_set_deterministic 4 3 1 0 [cdA, cdD] [cdD, cdA]
    (fun d => by simp only [List.mem_cons, List.not_mem_nil, or_false]; exact or_comm)
    (by decide) (by decide) (by decide)

/-! ### Composer (src/main.go, generateFonts lines 233-248) -/

/-- The zero-or-one-element list `appendMatchingFonts` appends. -/
def matchOne (descriptions : List fontDesc) (weight hDensity vDensity style : Int) :
    List fontDesc :=
  match findMatch descriptions weight hDensity vDensity style with
  | none => []
  | some m => [m]

theorem appendMatchingFonts_eq (out descriptions : List fontDesc)
    (weight hDensity vDensity style : Int) :
    appendMatchingFonts out descriptions weight hDensity vDensity style =
      out ++ matchOne descriptions weight hDensity vDensity style := by
  rw [appendMatchingFonts, matchOne]
  cases findMatch descriptions weight hDensity vDensity style with
  | none => simp
  | some m => rfl

/-- The merge-sequence construction of `generateFonts` (lines 233-248): the
primary input family's default-language selection, then each prepend-combo
family's default-language selection in declared order, then for each language
in the globally sorted list (skipping the empty code) the primary family's
selection, then each append-combo family's default-language selection.  `fd`
is the read-only FamilyTable (`fontDescriptions`), indexed by family then
language. -/
def composeSourceFonts (fd : String → String → List fontDesc) (languages : List String)
    (inputFamily : String) (prependCombo appendCombo : List String)
    (weight hDensity vDensity style : Int) : List fontDesc :=
  let s1 := appendMatchingFonts [] (fd inputFamily "") weight hDensity vDensity style
  let s2 := prependCombo.foldl
    (fun acc cf => appendMatchingFonts acc (fd cf "") weight hDensity vDensity style) s1
  let s3 := languages.foldl
    (fun acc l => if l = "" then acc
      else appendMatchingFonts acc (fd inputFamily l) weight hDensity vDensity style) s2
  appendCombo.foldl
    (fun acc cf => appendMatchingFonts acc (fd cf "") weight hDensity vDensity style) s3

/-- The same selection step, tagged with the (family, language) group it
consumed, for accounting entries per language. -/
def selectTag (fd : String → String → List fontDesc) (fam lang : String)
    (weight hDensity vDensity style : Int) : List (String × String × fontDesc) :=
  match findMatch (fd fam lang) weight hDensity vDensity style with
  | none => []
  | some m => [(fam, lang, m)]

/-- `composeSourceFonts` with each entry tagged by its (family, language)
group, written as the concatenation of the four phases. -/
def composeTagged (fd : String → String → List fontDesc) (languages : List String)
    (inputFamily : String) (prependCombo appendCombo : List String)
    (weight hDensity vDensity style : Int) : List (String × String × fontDesc) :=
  selectTag fd inputFamily "" weight hDensity vDensity style ++
  (prependCombo.map (fun cf => selectTag fd cf "" weight hDensity vDensity style)).flatten ++
  (languages.map (fun l => if l = "" then []
    else selectTag fd inputFamily l weight hDensity vDensity style)).flatten ++
  (appendCombo.map (fun cf => selectTag fd cf "" weight hDensity vDensity style)).flatten

theorem foldl_combo_eq (fd : String → String → List fontDesc)
    (weight hDensity vDensity style : Int) :
    ∀ (combos : List String) (init : List fontDesc),
      combos.foldl
        (fun acc cf => appendMatchingFonts acc (fd cf "") weight hDensity vDensity style)
        init =
      init ++ (combos.map
        (fun cf => matchOne (fd cf "") weight hDensity vDensity style)).flatten := by
  intro combos
  induction combos with
  | nil =>
    intro init
    simp
  | cons cf rest ih =>
    intro init
    rw [List.foldl_cons, ih, appendMatchingFonts_eq]
    simp [List.append_assoc]

theorem foldl_langs_eq (fd : String → String → List fontDesc) (inputFamily : String)
    (weight hDensity vDensity style : Int) :
    ∀ (langs : List String) (init : List fontDesc),
      langs.foldl
        (fun acc l => if l = "" then acc
          else appendMatchingFonts acc (fd inputFamily l) weight hDensity vDensity style)
        init =
      init ++ (langs.map (fun l => if l = "" then []
        else matchOne (fd inputFamily l) weight hDensity vDensity style)).flatten := by
  intro langs
  induction langs with
  | nil =>
    intro init
    simp
  | cons l rest ih =>
    intro init
    rw [List.foldl_cons]
    by_cases hl : l = ""
    · rw [if_pos hl, ih]
      simp [hl]
    · rw [if_neg hl, ih, appendMatchingFonts_eq]
      simp [hl, List.append_assoc]

theorem composeSourceFonts_eq (fd : String → String → List fontDesc)
    (languages : List String) (inputFamily : String) (prependCombo appendCombo : List String)
    (weight hDensity vDensity style : Int) :
    composeSourceFonts fd languages inputFamily prependCombo appendCombo
        weight hDensity vDensity style =
      matchOne (fd inputFamily "") weight hDensity vDensity style ++
      (prependCombo.map
        (fun cf => matchOne (fd cf "") weight hDensity vDensity style)).flatten ++
      (languages.map (fun l => if l = "" then []
        else matchOne (fd inputFamily l) weight hDensity vDensity style)).flatten ++
      (appendCombo.map
        (fun cf => matchOne (fd cf "") weight hDensity vDensity style)).flatten := by
  simp only [composeSourceFonts]
  rw [foldl_combo_eq, foldl_langs_eq, foldl_combo_eq, appendMatchingFonts_eq]
  simp [List.append_assoc]

theorem selectTag_proj (fd : String → String → List fontDesc) (fam lang : String)
    (weight hDensity vDensity style : Int) :
    (selectTag fd fam lang weight hDensity vDensity style).map (fun e => e.2.2) =
      matchOne (fd fam lang) weight hDensity vDensity style := by
  rw [selectTag, matchOne]
  cases findMatch (fd fam lang) weight hDensity vDensity style with
  | none => rfl
  | some m => rfl

theorem map_proj_flatten (g : String → List (String × String × fontDesc))
    (g' : String → List fontDesc) (hg : ∀ x, (g x).map (fun e => e.2.2) = g' x) :
    ∀ l : List String, ((l.map g).flatten).map (fun e => e.2.2) = (l.map g').flatten := by
  intro l
  induction l with
  | nil => rfl
  | cons x rest ih =>
    simp only [List.map_cons, List.flatten_cons, List.map_append, hg, ih]

/-- The tagged composition projects to the exact merge sequence the program
builds. -/
theorem composeTagged_map (fd : String → String → List fontDesc) (languages : List String)
    (inputFamily : String) (prependCombo appendCombo : List String)
    (weight hDensity vDensity style : Int) :
    (composeTagged fd languages inputFamily prependCombo appendCombo
        weight hDensity vDensity style).map (fun e => e.2.2) =
      composeSourceFonts fd languages inputFamily prependCombo appendCombo
        weight hDensity vDensity style := by
  rw [composeSourceFonts_eq, composeTagged]
  simp only [List.map_append]
  rw [selectTag_proj,
    map_proj_flatten _ _ (fun cf => selectTag_proj fd cf "" weight hDensity vDensity style),
    map_proj_flatten (fun l => if l = "" then []
        else selectTag fd inputFamily l weight hDensity vDensity style)
      (fun l => if l = "" then []
        else matchOne (fd inputFamily l) weight hDensity vDensity style)
      (fun l => by
        show (if l = "" then []
            else selectTag fd inputFamily l weight hDensity vDensity style).map
            (fun e => e.2.2) =
          (if l = "" then []
            else matchOne (fd inputFamily l) weight hDensity vDensity style)
        by_cases hl : l = ""
        · rw [if_pos hl, if_pos hl]
          rfl
        · rw [if_neg hl, if_neg hl, selectTag_proj]),
    map_proj_flatten _ _ (fun cf => selectTag_proj fd cf "" weight hDensity vDensity style)]

theorem selectTag_filter_ne (fd : String → String → List fontDesc) (fam lang : String)
    (weight hDensity vDensity style : Int) (lg : String) (h : lang ≠ lg) :
    (selectTag fd fam lang weight hDensity vDensity style).filter
      (fun e => e.2.1 == lg) = [] := by
  rw [selectTag]
  cases findMatch (fd fam lang) weight hDensity vDensity style with
  | none => rfl
  | some m =>
    have : ((fam, lang, m).2.1 == lg) = false := beq_eq_false_iff_ne.mpr h
    simp [List.filter, this]

theorem combo_filter_nil (fd : String → String → List fontDesc)
    (weight hDensity vDensity style : Int) (lg : String) (h : lg ≠ "") :
    ∀ combos : List String,
      ((combos.map (fun cf => selectTag fd cf "" weight hDensity vDensity style)).flatten).filter
        (fun e => e.2.1 == lg) = [] := by
  intro combos
  induction combos with
  | nil => rfl
  | cons cf rest ih =>
    simp only [List.map_cons, List.flatten_cons, List.filter_append, ih,
      selectTag_filter_ne fd cf "" weight hDensity vDensity style lg (Ne.symm h),
      List.nil_append]

theorem langs_filter_notmem (fd : String → String → List fontDesc) (inputFamily : String)
    (weight hDensity vDensity style : Int) (lg : String) :
    ∀ langs : List String, lg ∉ langs →
      ((langs.map (fun l => if l = "" then []
          else selectTag fd inputFamily l weight hDensity vDensity style)).flatten).filter
        (fun e => e.2.1 == lg) = [] := by
  intro langs
  induction langs with
  | nil =>
    intro _
    rfl
  | cons l rest ih =>
    intro hmem
    have hl : l ≠ lg := fun he => hmem (by rw [he]; exact List.mem_cons_self lg rest)
    have hrest : lg ∉ rest := fun he => hmem (List.mem_cons_of_mem l he)
    simp only [List.map_cons, List.flatten_cons, List.filter_append, ih hrest,
      List.append_nil]
    by_cases hle : l = ""
    · rw [if_pos hle]
      rfl
    · rw [if_neg hle, selectTag_filter_ne fd inputFamily l weight hDensity vDensity style lg hl]

theorem langs_filter_le_one (fd : String → String → List fontDesc) (inputFamily : String)
    (weight hDensity vDensity style : Int) (lg : String) (hlg : lg ≠ "") :
    ∀ langs : List String, langs.Nodup →
      (((langs.map (fun l => if l = "" then []
          else selectTag fd inputFamily l weight hDensity vDensity style)).flatten).filter
        (fun e => e.2.1 == lg)).length ≤ 1 := by
  intro langs
  induction langs with
  | nil =>
    intro _
    simp
  | cons l rest ih =>
    intro hnodup
    have hnotmem : l ∉ rest := (List.nodup_cons.mp hnodup).1
    have hrest : rest.Nodup := (List.nodup_cons.mp hnodup).2
    simp only [List.map_cons, List.flatten_cons, List.filter_append, List.length_append]
    by_cases hl : l = lg
    · subst hl
      have h2 : ((rest.map (fun l => if l = "" then []
          else selectTag fd inputFamily l weight hDensity vDensity style)).flatten).filter
            (fun e => e.2.1 == l) = [] :=
        langs_filter_notmem fd inputFamily weight hDensity vDensity style l rest hnotmem
      rw [h2]
      simp only [List.length_nil, Nat.add_zero]
      calc ((if l = "" then []
            else selectTag fd inputFamily l weight hDensity vDensity style).filter
              (fun e => e.2.1 == l)).length
          ≤ (if l = "" then []
            else selectTag fd inputFamily l weight hDensity vDensity style).length :=
            List.length_filter_le _ _
        _ ≤ 1 := by
            rw [if_neg hlg]
            rw [selectTag]
            cases findMatch (fd inputFamily l) weight hDensity vDensity style with
            | none => simp
            | some m => simp
    · have h1 : (if l = "" then []
          else selectTag fd inputFamily l weight hDensity vDensity style).filter
            (fun e => e.2.1 == lg) = [] := by
        by_cases hle : l = ""
        · rw [if_pos hle]
          rfl
        · rw [if_neg hle]
          exact selectTag_filter_ne fd inputFamily l weight hDensity vDensity style lg hl
      rw [h1]
      simp only [List.length_nil, Nat.zero_add]
      exact ih hrest

/-- A two-family table: the primary family Sans and the combo family Emoji
each offer one default-language descriptor. -/
def tableC3 : String → String → List fontDesc := fun f l =>
  if f = "Sans" ∧ l = "" then [cdA]
  else if f = "Emoji" ∧ l = "" then [cdB]
  else []

/-- Claim C3 counterexample: in the configured shape (primary family plus a
prepend-combo family) the merge sequence contains two entries whose consumed
group has the default (empty) language code — one from the primary family and
one from the combo family — so the sequence does contain more than one entry
per language. -/
theorem composer_language_counterexample :
    composeSourceFonts tableC3 [""] "Sans" ["Emoji"] [] 4 3 1 0 = [cdA, cdB] ∧
    ((composeTagged tableC3 [""] "Sans" ["Emoji"] [] 4 3 1 0).filter
      (fun e => e.2.1 == "")).length = 2 := by
  constructor
  · decide
  · decide

/-- Claim C3 (amended): the merge sequence places the primary family's
default-language selection first whenever that group selects a descriptor;
the tagged composition projects to the exact merge sequence; and each
non-default language contributes at most one entry (the observed language
list is duplicate-free, being built from a set).  The default language may
contribute one entry per primary/combo family, so "at most one entry per
language" holds per (family, language) group rather than per language. -/
theorem composer_order_invariant (fd : String → String → List fontDesc)
    (languages : List String) (inputFamily : String) (prependCombo appendCombo : List String)
    (weight hDensity vDensity style : Int) (hnodup : languages.Nodup) :
    (∀ m, findMatch (fd inputFamily "") weight hDensity vDensity style = some m →
      (composeSourceFonts fd languages inputFamily prependCombo appendCombo
        weight hDensity vDensity style).head? = some m) ∧
    ((composeTagged fd languages inputFamily prependCombo appendCombo
        weight hDensity vDensity style).map (fun e => e.2.2) =
      composeSourceFonts fd languages inputFamily prependCombo appendCombo
        weight hDensity vDensity style) ∧
    (∀ lg, lg ≠ "" →
      ((composeTagged fd languages inputFamily prependCombo appendCombo
          weight hDensity vDensity style).filter (fun e => e.2.1 == lg)).length ≤ 1) := by
  refine ⟨?_, composeTagged_map fd languages inputFamily prependCombo appendCombo
    weight hDensity vDensity style, ?_⟩
  · intro m hm
    rw [composeSourceFonts_eq, matchOne, hm]
    rfl
  · intro lg hlg
    rw [composeTagged]
    simp only [List.filter_append, List.length_append]
    rw [selectTag_filter_ne fd inputFamily "" weight hDensity vDensity style lg (Ne.symm hlg),
      combo_filter_nil fd weight hDensity vDensity style lg hlg prependCombo,
      combo_filter_nil fd weight hDensity vDensity style lg hlg appendCombo]
    simp only [List.length_nil]
    have := langs_filter_le_one fd inputFamily weight hDensity vDensity style lg hlg
      languages hnodup
    omega

/-- Witness for C3 (amended) on a concrete table, language list and variant. -/
theorem composer_order_invariant_witness :
    (∀ m, findMatch (tableC3 "Sans" "") 4 3 1 0 = some m →
      (composeSourceFonts tableC3 ["", "el"] "Sans" ["Emoji"] [] 4 3 1 0).head? = some m) ∧
    ((composeTagged tableC3 ["", "el"] "Sans" ["Emoji"] [] 4 3 1 0).map (fun e => e.2.2) =
      composeSourceFonts tableC3 ["", "el"] "Sans" ["Emoji"] [] 4 3 1 0) ∧
    (∀ lg, lg ≠ "" →
      ((composeTagged tableC3 ["", "el"] "Sans" ["Emoji"] [] 4 3 1 0).filter
        (fun e => e.2.1 == lg)).length ≤ 1) :=
  composer_order_invariant tableC3 ["", "el"] "Sans" ["Emoji"] [] 4 3 1 0 (by decide)

/-! ### Classifier (src/main.go, generateFonts lines 122-159, indexOf, exactIndexOf) -/

/-- The family enumeration (`families`, declared order). -/
def familiesL : List (List Char) :=
  ["SerifDisplay".toList, "SansDisplay".toList, "SansMono".toList, "Serif".toList,
   "Sans".toList, "Mono".toList, "Emoji".toList, "KufiArabic".toList,
   "NaskhArabic".toList, "NastaliqUrdu".toList]

/-- The weight enumeration (`weights`). -/
def weightsL : List (List Char) :=
  ["Thin".toList, "ExtraLight".toList, "Light".toList, "DemiLight".toList,
   "Regular".toList, "Medium".toList, "SemiBold".toList, "Bold".toList,
   "ExtraBold".toList, "Black".toList]

/-- The horizontal density enumeration (`hDensities`); the empty entry is the
default. -/
def hDensitiesL : List (List Char) :=
  ["ExtraCondensed".toList, "Condensed".toList, "SemiCondensed".toList, []]

/-- The vertical density enumeration (`vDensities`). -/
def vDensitiesL : List (List Char) := ["UI".toList, []]

/-- The style enumeration (`styles`). -/
def stylesL : List (List Char) := [[], "Italic".toList]

/-- The loop of `indexOf` (src/main.go lines 265-283): `dflt` holds the index
of an empty entry seen so far (initially -1), `i` the current position.  An
empty entry only records the default, a non-empty entry is matched as a prefix
or suffix of `s`, consuming the matched substring.  `strings.HasSuffix s x`
is `s[len(s)-len(x):] == x` guarded by `len(x) ≤ len(s)`; with truncated
subtraction the guard is redundant (a longer `x` never equals the undropped
`s`), so it is omitted. -/
def indexOfGo (s : List Char) (pre : Bool) :
    List (List Char) → Int → Int → Int × List Char × List Char
  | [], dflt, _ => (dflt, s, [])
  | x :: xs, dflt, i =>
    if x = [] then indexOfGo s pre xs i (i + 1)
    else if pre then
      if s.take x.length = x then (i, s.drop x.length, x)
      else indexOfGo s pre xs dflt (i + 1)
    else
      if s.drop (s.length - x.length) = x then (i, s.take (s.length - x.length), x)
      else indexOfGo s pre xs dflt (i + 1)

/-- `indexOf(s, l, prefix)`: returns (index, unconsumed remainder, matched
token). -/
def indexOfL (s : List Char) (l : List (List Char)) (pre : Bool) :
    Int × List Char × List Char :=
  indexOfGo s pre l (-1) 0

/-- The loop of `exactIndexOf` (src/main.go lines 285-292). -/
def exactIndexOfGo (s : List Char) : List (List Char) → Int → Int
  | [], _ => -1
  | x :: xs, i => if x = s then i else exactIndexOfGo s xs (i + 1)

/-- `exactIndexOf(s, l)`. -/
def exactIndexOfL (s : List Char) (l : List (List Char)) : Int :=
  exactIndexOfGo s l 0

/-- `filepath.Ext`: the suffix starting at the final dot, empty when there is
no dot. -/
def extOf (name : List Char) : List Char :=
  if '.' ∈ name then '.' :: (name.reverse.takeWhile (fun c => c != '.')).reverse
  else []

/-- `strings.SplitN(name, "-", 2)` followed by the length-2 check: splits at
the first dash, `none` when the name contains no dash. -/
def splitDash (name : List Char) : Option (List Char × List Char) :=
  if '-' ∈ name then
    some (name.takeWhile (fun c => c != '-'), (name.dropWhile (fun c => c != '-')).drop 1)
  else none

/-- The token-consumption core of the classifier (src/main.go lines 141-166):
family by prefix on the domain token (reject when none matched), vertical
density by suffix on the remaining domain token — the remainder after that is
the language — then style by suffix, horizontal density by prefix and weight
by prefix on the styling token; an unmatched weight falls back to
`exactIndexOf("Regular", weights)`; any unconsumed styling rejects the file.
Returns (familyName, language, descriptor). -/
def classifyCore (fname domain styling : List Char) :
    Option (List Char × List Char × fontDesc) :=
  match indexOfL domain familiesL true with
  | (family, domain1, familyName) =>
    if family < 0 then none
    else
      match indexOfL domain1 vDensitiesL false with
      | (vDensity, language, _) =>
        match indexOfL styling stylesL false with
        | (style, styling1, _) =>
          match indexOfL styling1 hDensitiesL true with
          | (hDensity, styling2, _) =>
            match indexOfL styling2 weightsL true with
            | (weight0, styling3, _) =>
              if styling3 ≠ [] then none
              else some (familyName, language,
                ⟨fname,
                 if weight0 < 0 then exactIndexOfL "Regular".toList weightsL else weight0,
                 hDensity, vDensity, style⟩)

/-- The filename classifier (src/main.go lines 122-166): length, extension
and brand checks, the split of the undecorated name at the first dash into
domain and styling tokens, then `classifyCore`. -/
def classify (fname : List Char) : Option (List Char × List Char × fontDesc) :=
  if fname.length < 9 then none
  else if ¬(extOf fname = ".otf".toList ∨ extOf fname = ".ttf".toList) then none
  else if ¬(fname.take 4 = "Noto".toList) then none
  else
    match splitDash ((fname.drop 4).take (fname.length - (extOf fname).length - 4)) with
    | none => none
    | some (domain, styling) => classifyCore fname domain styling


theorem indexOfGo_nil (s : List Char) (pre : Bool) (dflt i : Int) :
    indexOfGo s pre [] dflt i = (dflt, s, []) := by
  rw [indexOfGo]

theorem indexOfGo_cons_empty (s : List Char) (pre : Bool) (x : List Char)
    (xs : List (List Char)) (dflt i : Int) (hx : x = []) :
    indexOfGo s pre (x :: xs) dflt i = indexOfGo s pre xs i (i + 1) := by
  rw [indexOfGo, if_pos hx]

theorem indexOfGo_cons_pre_matched (s x : List Char) (xs : List (List Char)) (dflt i : Int)
    (hx : x ≠ []) (hm : s.take x.length = x) :
    indexOfGo s true (x :: xs) dflt i = (i, s.drop x.length, x) := by
  rw [indexOfGo, if_neg hx]
  show (if s.take x.length = x then ((i, s.drop x.length, x) : Int × List Char × List Char)
    else indexOfGo s true xs dflt (i + 1)) = _
  rw [if_pos hm]

theorem indexOfGo_cons_pre_unmatched (s x : List Char) (xs : List (List Char)) (dflt i : Int)
    (hx : x ≠ []) (hm : ¬ s.take x.length = x) :
    indexOfGo s true (x :: xs) dflt i = indexOfGo s true xs dflt (i + 1) := by
  rw [indexOfGo, if_neg hx]
  show (if s.take x.length = x then ((i, s.drop x.length, x) : Int × List Char × List Char)
    else indexOfGo s true xs dflt (i + 1)) = _
  rw [if_neg hm]

theorem indexOfGo_cons_suf_matched (s x : List Char) (xs : List (List Char)) (dflt i : Int)
    (hx : x ≠ []) (hm : s.drop (s.length - x.length) = x) :
    indexOfGo s false (x :: xs) dflt i = (i, s.take (s.length - x.length), x) := by
  rw [indexOfGo, if_neg hx]
  show (if s.drop (s.length - x.length) = x
      then ((i, s.take (s.length - x.length), x) : Int × List Char × List Char)
    else indexOfGo s false xs dflt (i + 1)) = _
  rw [if_pos hm]

theorem indexOfGo_cons_suf_unmatched (s x : List Char) (xs : List (List Char)) (dflt i : Int)
    (hx : x ≠ []) (hm : ¬ s.drop (s.length - x.length) = x) :
    indexOfGo s false (x :: xs) dflt i = indexOfGo s false xs dflt (i + 1) := by
  rw [indexOfGo, if_neg hx]
  show (if s.drop (s.length - x.length) = x
      then ((i, s.take (s.length - x.length), x) : Int × List Char × List Char)
    else indexOfGo s false xs dflt (i + 1)) = _
  rw [if_neg hm]

theorem indexOfGo_decomp_pre (s : List Char) :
    ∀ (l : List (List Char)) (dflt i : Int),
      s = (indexOfGo s true l dflt i).2.2 ++ (indexOfGo s true l dflt i).2.1 := by
  intro l
  induction l with
  | nil =>
    intro dflt i
    rw [indexOfGo_nil]
    simp
  | cons x xs ih =>
    intro dflt i
    by_cases hx : x = []
    · rw [indexOfGo_cons_empty s true x xs dflt i hx]
      exact ih i (i + 1)
    · by_cases hm : s.take x.length = x
      · rw [indexOfGo_cons_pre_matched s x xs dflt i hx hm]
        conv_lhs => rw [← List.take_append_drop x.length s]
        rw [hm]
      · rw [indexOfGo_cons_pre_unmatched s x xs dflt i hx hm]
        exact ih dflt (i + 1)

theorem indexOfGo_decomp_suf (s : List Char) :
    ∀ (l : List (List Char)) (dflt i : Int),
      s = (indexOfGo s false l dflt i).2.1 ++ (indexOfGo s false l dflt i).2.2 := by
  intro l
  induction l with
  | nil =>
    intro dflt i
    rw [indexOfGo_nil]
    simp
  | cons x xs ih =>
    intro dflt i
    by_cases hx : x = []
    · rw [indexOfGo_cons_empty s false x xs dflt i hx]
      exact ih i (i + 1)
    · by_cases hm : s.drop (s.length - x.length) = x
      · rw [indexOfGo_cons_suf_matched s x xs dflt i hx hm]
        conv_lhs => rw [← List.take_append_drop (s.length - x.length) s]
        rw [hm]
      · rw [indexOfGo_cons_suf_unmatched s x xs dflt i hx hm]
        exact ih dflt (i + 1)

theorem indexOfGo_lookup (s : List Char) (pre : Bool) :
    ∀ (l : List (List Char)) (dflt i : Int),
      ((indexOfGo s pre l dflt i).1 = dflt ∧ (indexOfGo s pre l dflt i).2.2 = [] ∧
        (indexOfGo s pre l dflt i).2.1 = s) ∨
      (∃ j : Nat, (indexOfGo s pre l dflt i).1 = i + j ∧
        l.get? j = some (indexOfGo s pre l dflt i).2.2) := by
  intro l
  induction l with
  | nil =>
    intro dflt i
    rw [indexOfGo_nil]
    exact Or.inl ⟨rfl, rfl, rfl⟩
  | cons x xs ih =>
    intro dflt i
    by_cases hx : x = []
    · rw [indexOfGo_cons_empty s pre x xs dflt i hx]
      rcases ih i (i + 1) with ⟨h1, h2, h3⟩ | ⟨j, hj, hget⟩
      · refine Or.inr ⟨0, ?_, ?_⟩
        · rw [h1]
          simp
        · rw [h2, hx]
          rfl
      · refine Or.inr ⟨j + 1, ?_, ?_⟩
        · rw [hj]
          push_cast
          ring
        · rw [List.get?_cons_succ]
          exact hget
    · cases pre with
      | true =>
        by_cases hm : s.take x.length = x
        · rw [indexOfGo_cons_pre_matched s x xs dflt i hx hm]
          exact Or.inr ⟨0, by simp, rfl⟩
        · rw [indexOfGo_cons_pre_unmatched s x xs dflt i hx hm]
          rcases ih dflt (i + 1) with h | ⟨j, hj, hget⟩
          · exact Or.inl h
          · refine Or.inr ⟨j + 1, ?_, ?_⟩
            · rw [hj]
              push_cast
              ring
            · rw [List.get?_cons_succ]
              exact hget
      | false =>
        by_cases hm : s.drop (s.length - x.length) = x
        · rw [indexOfGo_cons_suf_matched s x xs dflt i hx hm]
          exact Or.inr ⟨0, by simp, rfl⟩
        · rw [indexOfGo_cons_suf_unmatched s x xs dflt i hx hm]
          rcases ih dflt (i + 1) with h | ⟨j, hj, hget⟩
          · exact Or.inl h
          · refine Or.inr ⟨j + 1, ?_, ?_⟩
            · rw [hj]
              push_cast
              ring
            · rw [List.get?_cons_succ]
              exact hget

theorem indexOfL_decomp_pre (s : List Char) (l : List (List Char)) :
    s = (indexOfL s l true).2.2 ++ (indexOfL s l true).2.1 :=
  indexOfGo_decomp_pre s l (-1) 0

theorem indexOfL_decomp_suf (s : List Char) (l : List (List Char)) :
    s = (indexOfL s l false).2.1 ++ (indexOfL s l false).2.2 :=
  indexOfGo_decomp_suf s l (-1) 0

theorem indexOfL_lookup (s : List Char) (l : List (List Char)) (pre : Bool)
    (h : 0 ≤ (indexOfL s l pre).1) :
    l.get? (indexOfL s l pre).1.toNat = some (indexOfL s l pre).2.2 := by
  rcases indexOfGo_lookup s pre l (-1) 0 with ⟨h1, _, _⟩ | ⟨j, hj, hget⟩
  · rw [indexOfL] at h
    rw [h1] at h
    omega
  · rw [indexOfL, hj]
    simpa using hget

theorem indexOfL_neg (s : List Char) (l : List (List Char)) (pre : Bool)
    (h : (indexOfL s l pre).1 < 0) :
    (indexOfL s l pre).2.2 = [] ∧ (indexOfL s l pre).2.1 = s := by
  rcases indexOfGo_lookup s pre l (-1) 0 with ⟨_, h2, h3⟩ | ⟨j, hj, _⟩
  · exact ⟨h2, h3⟩
  · rw [indexOfL] at h
    rw [hj] at h
    omega

theorem indexOfGo_nonneg (s : List Char) (pre : Bool) :
    ∀ (l : List (List Char)) (dflt i : Int), 0 ≤ i → ([] ∈ l ∨ 0 ≤ dflt) →
      0 ≤ (indexOfGo s pre l dflt i).1 := by
  intro l
  induction l with
  | nil =>
    intro dflt i hi hd
    rw [indexOfGo_nil]
    rcases hd with hd | hd
    · exact absurd hd (List.not_mem_nil [])
    · exact hd
  | cons x xs ih =>
    intro dflt i hi hd
    by_cases hx : x = []
    · rw [indexOfGo_cons_empty s pre x xs dflt i hx]
      exact ih i (i + 1) (by omega) (Or.inr hi)
    · have hd' : [] ∈ xs ∨ 0 ≤ dflt := by
        rcases hd with hd | hd
        · rcases List.mem_cons.mp hd with he | he
          · exact absurd he.symm hx
          · exact Or.inl he
        · exact Or.inr hd
      cases pre with
      | true =>
        by_cases hm : s.take x.length = x
        · rw [indexOfGo_cons_pre_matched s x xs dflt i hx hm]
          exact hi
        · rw [indexOfGo_cons_pre_unmatched s x xs dflt i hx hm]
          exact ih dflt (i + 1) (by omega) hd'
      | false =>
        by_cases hm : s.drop (s.length - x.length) = x
        · rw [indexOfGo_cons_suf_matched s x xs dflt i hx hm]
          exact hi
        · rw [indexOfGo_cons_suf_unmatched s x xs dflt i hx hm]
          exact ih dflt (i + 1) (by omega) hd'

theorem indexOfL_nonneg (s : List Char) (l : List (List Char)) (pre : Bool)
    (h : [] ∈ l) : 0 ≤ (indexOfL s l pre).1 :=
  indexOfGo_nonneg s pre l (-1) 0 (le_refl 0) (Or.inl h)

theorem classifyCore_spec (fname domain styling famName lang : List Char) (d : fontDesc)
    (h : classifyCore fname domain styling = some (famName, lang, d)) :
    ∃ vTok sTok hTok wTok,
      famName ∈ familiesL ∧
      domain = famName ++ lang ++ vTok ∧
      0 ≤ d.vDensity ∧ vDensitiesL.get? d.vDensity.toNat = some vTok ∧
      0 ≤ d.style ∧ stylesL.get? d.style.toNat = some sTok ∧
      0 ≤ d.hDensity ∧ hDensitiesL.get? d.hDensity.toNat = some hTok ∧
      (weightsL.get? d.weight.toNat = some wTok ∨ (wTok = [] ∧ d.weight = 4)) ∧
      styling = hTok ++ wTok ++ sTok ∧
      d.filename = fname := by
  rcases h1 : indexOfL domain familiesL true with ⟨family, domain1, familyName⟩
  rcases h2 : indexOfL domain1 vDensitiesL false with ⟨vDensity, language, vTok⟩
  rcases h3 : indexOfL styling stylesL false with ⟨style, styling1, sTok⟩
  rcases h4 : indexOfL styling1 hDensitiesL true with ⟨hDensity, styling2, hTok⟩
  rcases h5 : indexOfL styling2 weightsL true with ⟨weight0, styling3, wTok⟩
  simp only [classifyCore, h1, h2, h3, h4, h5] at h
  by_cases hfam : family < 0
  · rw [if_pos hfam] at h
    exact absurd h (by simp)
  · rw [if_neg hfam] at h
    by_cases hsty : styling3 ≠ []
    · rw [if_pos hsty] at h
      exact absurd h (by simp)
    · rw [if_neg hsty] at h
      have hsty3 : styling3 = [] := not_ne_iff.mp hsty
      rw [Option.some.injEq, Prod.mk.injEq, Prod.mk.injEq] at h
      obtain ⟨hfn, hlg, hd⟩ := h
      subst hfn hlg
      subst hd
      have hfam0 : (0 : Int) ≤ family := not_lt.mp hfam
      have hlk1 := indexOfL_lookup domain familiesL true (by rw [h1]; exact hfam0)
      rw [h1] at hlk1
      have hvd0 : 0 ≤ (indexOfL domain1 vDensitiesL false).1 :=
        indexOfL_nonneg domain1 vDensitiesL false (by decide)
      have hlk2 := indexOfL_lookup domain1 vDensitiesL false hvd0
      rw [h2] at hlk2 hvd0
      have hst0 : 0 ≤ (indexOfL styling stylesL false).1 :=
        indexOfL_nonneg styling stylesL false (by decide)
      have hlk3 := indexOfL_lookup styling stylesL false hst0
      rw [h3] at hlk3 hst0
      have hhd0 : 0 ≤ (indexOfL styling1 hDensitiesL true).1 :=
        indexOfL_nonneg styling1 hDensitiesL true (by decide)
      have hlk4 := indexOfL_lookup styling1 hDensitiesL true hhd0
      rw [h4] at hlk4 hhd0
      have hdom : domain = familyName ++ domain1 := by
        have := indexOfL_decomp_pre domain familiesL
        rwa [h1] at this
      have hdom1 : domain1 = language ++ vTok := by
        have := indexOfL_decomp_suf domain1 vDensitiesL
        rwa [h2] at this
      have hsty0 : styling = styling1 ++ sTok := by
        have := indexOfL_decomp_suf styling stylesL
        rwa [h3] at this
      have hsty1 : styling1 = hTok ++ styling2 := by
        have := indexOfL_decomp_pre styling1 hDensitiesL
        rwa [h4] at this
      have hsty2 : styling2 = wTok ++ styling3 := by
        have := indexOfL_decomp_pre styling2 weightsL
        rwa [h5] at this
      refine ⟨vTok, sTok, hTok, wTok, List.get?_mem hlk1, ?_, hvd0, hlk2, hst0, hlk3,
        hhd0, hlk4, ?_, ?_, rfl⟩
      · rw [hdom, hdom1, List.append_assoc]
      · by_cases hw : weight0 < 0
        · obtain ⟨hwtok, _⟩ := indexOfL_neg styling2 weightsL true (by rw [h5]; exact hw)
          rw [h5] at hwtok
          refine Or.inr ⟨hwtok, ?_⟩
          show (if weight0 < 0 then exactIndexOfL "Regular".toList weightsL else weight0) = 4
          rw [if_pos hw]
          decide
        · have hw0 : (0 : Int) ≤ weight0 := not_lt.mp hw
          have hlk5 := indexOfL_lookup styling2 weightsL true (by rw [h5]; exact hw0)
          rw [h5] at hlk5
          refine Or.inl ?_
          show weightsL.get? (if weight0 < 0 then exactIndexOfL "Regular".toList weightsL
            else weight0).toNat = some wTok
          rw [if_neg hw]
          exact hlk5
      · rw [hsty0, hsty1, hsty2, hsty3, List.append_nil, List.append_assoc]

/-- Claim C9 (amended): for every accepted filename the domain token
decomposes as matched-family-token ++ language ++ matched-vertical-density
token — the language is the remainder after removing the family prefix AND
the vertical-density suffix, both matched against the domain token — and the
styling token decomposes as horizontal-density token ++ weight token ++ style
token, style matched by suffix first, then horizontal density by prefix, then
weight by prefix, with the default `Regular` weight when no weight token
matched; the recorded indices point at exactly the matched tokens. -/
theorem classify_token_consumption (fname famName lang : List Char) (d : fontDesc)
    (h : classify fname = some (famName, lang, d)) :
    ∃ dom sty vTok sTok hTok wTok,
      splitDash ((fname.drop 4).take (fname.length - (extOf fname).length - 4)) =
        some (dom, sty) ∧
      famName ∈ familiesL ∧
      dom = famName ++ lang ++ vTok ∧
      0 ≤ d.vDensity ∧ vDensitiesL.get? d.vDensity.toNat = some vTok ∧
      0 ≤ d.style ∧ stylesL.get? d.style.toNat = some sTok ∧
      0 ≤ d.hDensity ∧ hDensitiesL.get? d.hDensity.toNat = some hTok ∧
      (weightsL.get? d.weight.toNat = some wTok ∨ (wTok = [] ∧ d.weight = 4)) ∧
      sty = hTok ++ wTok ++ sTok := by
  rw [classify] at h
  split_ifs at h
  all_goals try exact absurd h (by simp)
  rcases hsp : splitDash ((fname.drop 4).take (fname.length - (extOf fname).length - 4))
    with _ | ⟨domain, styling⟩
  · rw [hsp] at h
    exact absurd h (by simp)
  · rw [hsp] at h
    obtain ⟨vTok, sTok, hTok, wTok, hmem, hdom, hv0, hv, hs0, hs, hh0, hh, hw, hsty, _⟩ :=
      classifyCore_spec fname domain styling famName lang d (by exact h)
    exact ⟨domain, styling, vTok, sTok, hTok, wTok, rfl, hmem, hdom, hv0, hv, hs0, hs,
      hh0, hh, hw, hsty⟩

/-- Claim C9 counterexample: for `NotoSansUI-Regular.ttf` the remainder of the
domain token after removing the matched family prefix is `UI`, but the
recorded language is the empty string — the classifier also strips the
vertical-density suffix `UI` from the domain token before recording the
language, contrary to the claim. -/
theorem classifier_language_counterexample :
    (indexOfL "SansUI".toList familiesL true).2.1 = "UI".toList ∧
    classify "NotoSansUI-Regular.ttf".toList =
      some ("Sans".toList, ([] : List Char),
        ⟨"NotoSansUI-Regular.ttf".toList, 4, 3, 0, 0⟩) ∧
    ("UI".toList : List Char) ≠ [] :=
  ⟨by decide, by decide, by decide⟩

/-- The descriptor `classify` produces for `NotoSansUI-BoldItalic.ttf`. -/
def classifiedBoldItalic : fontDesc :=
  ⟨"NotoSansUI-BoldItalic.ttf".toList, 7, 3, 0, 1⟩

/-- Witness for C9 (amended) at the accepted name `NotoSansUI-BoldItalic.ttf`. -/
theorem classify_token_consumption_witness :
    ∃ dom sty vTok sTok hTok wTok,
      splitDash (("NotoSansUI-BoldItalic.ttf".toList.drop 4).take
        ("NotoSansUI-BoldItalic.ttf".toList.length -
          (extOf "NotoSansUI-BoldItalic.ttf".toList).length - 4)) = some (dom, sty) ∧
      "Sans".toList ∈ familiesL ∧
      dom = "Sans".toList ++ ([] : List Char) ++ vTok ∧
      0 ≤ classifiedBoldItalic.vDensity ∧
      vDensitiesL.get? classifiedBoldItalic.vDensity.toNat = some vTok ∧
      0 ≤ classifiedBoldItalic.style ∧
      stylesL.get? classifiedBoldItalic.style.toNat = some sTok ∧
      0 ≤ classifiedBoldItalic.hDensity ∧
      hDensitiesL.get? classifiedBoldItalic.hDensity.toNat = some hTok ∧
      (weightsL.get? classifiedBoldItalic.weight.toNat = some wTok ∨
        (wTok = [] ∧ classifiedBoldItalic.weight = 4)) ∧
      sty = hTok ++ wTok ++ sTok :=
  classify_token_consumption "NotoSansUI-BoldItalic.ttf".toList "Sans".toList []
    classifiedBoldItalic (by decide)

/-! ### seekBuffer (src/unnamed/part_001) -/

/-- The growable seekable buffer: the content slice and the write position.
Go's capacity growth only affects allocation, not content: growth fills the
extension with zeros before `copy` overwrites all of it (the copy range
`[pos, pos+n)` covers the extension `[len, pos+n)` whenever `pos ≤ len`). -/
structure seekBuffer where
  buf : List Nat
  pos : Nat

/-- `Reset`: truncates the content to length zero and rewinds. -/
def seekBufferReset (_ : seekBuffer) : seekBuffer := ⟨[], 0⟩

/-- `Write`: stores `p` at the current position, growing the content as
needed, advances the position by `len p` and returns `(len p, nil)`.
Faithful for every state with `pos ≤ len buf` (the invariant the type
maintains; a larger `pos` would make the Go `copy(sb.buf[sb.pos:], p)`
panic). -/
def seekBufferWrite (sb : seekBuffer) (p : List Nat) : Nat × Option String × seekBuffer :=
  (p.length, none,
    ⟨sb.buf.take sb.pos ++ p ++ sb.buf.drop (sb.pos + p.length), sb.pos + p.length⟩)

/-- The three `io.Seek*` whence constants. -/
inductive seekWhence where
  | start
  | current
  | fromEnd

/-- The clamping at the end of `Seek`: negative positions become 0, positions
past the end become `len buf`. -/
def seekClamp (buf : List Nat) (p : Int) : Nat :=
  if p < 0 then 0
  else if p > (buf.length : Int) then buf.length
  else p.toNat

/-- `Seek`: `SeekStart` rejects a negative offset (position unchanged),
otherwise the target position — absolute, relative to the current position,
or relative to the end (where a non-negative offset saturates at the end) —
is clamped into `[0, len buf]`; returns the final position and the error. -/
def seekBufferSeek (sb : seekBuffer) (offset : Int) (w : seekWhence) :
    Int × Option String × seekBuffer :=
  match w with
  | .start =>
      if offset < 0 then
        ((sb.pos : Int), some "invalid negative seek relative to start", sb)
      else
        let p := seekClamp sb.buf offset
        ((p : Int), none, ⟨sb.buf, p⟩)
  | .fromEnd =>
      let p := seekClamp sb.buf
        (if 0 ≤ offset then (sb.buf.length : Int) else (sb.buf.length : Int) + offset)
      ((p : Int), none, ⟨sb.buf, p⟩)
  | .current =>
      let p := seekClamp sb.buf ((sb.pos : Int) + offset)
      ((p : Int), none, ⟨sb.buf, p⟩)

theorem seekClamp_le (buf : List Nat) (p : Int) : seekClamp buf p ≤ buf.length := by
  rw [seekClamp]
  split_ifs with h1 h2
  · omega
  · omega
  · omega

/-- Claim C10: every seekBuffer operation preserves `0 ≤ pos ≤ len buf`;
`Seek` is total, clamping out-of-range targets into `[0, len buf]` and
erroring only on a negative offset relative to start, leaving the position
unchanged in that case; `Write` never fails, returns `(len p, nil)`, stores
the written bytes at the pre-call position and preserves all bytes before
that position. -/
theorem seekBuffer_invariants (sb : seekBuffer) (p : List Nat) (offset : Int)
    (w : seekWhence) (hinv : sb.pos ≤ sb.buf.length) :
    ((seekBufferReset sb).pos ≤ (seekBufferReset sb).buf.length) ∧
    ((seekBufferWrite sb p).1 = p.length ∧ (seekBufferWrite sb p).2.1 = none ∧
      (seekBufferWrite sb p).2.2.pos ≤ (seekBufferWrite sb p).2.2.buf.length ∧
      (seekBufferWrite sb p).2.2.buf.take sb.pos = sb.buf.take sb.pos ∧
      ((seekBufferWrite sb p).2.2.buf.drop sb.pos).take p.length = p ∧
      (seekBufferWrite sb p).2.2.pos = sb.pos + p.length) ∧
    ((seekBufferSeek sb offset w).2.2.pos ≤ (seekBufferSeek sb offset w).2.2.buf.length ∧
      (seekBufferSeek sb offset w).1 = ((seekBufferSeek sb offset w).2.2.pos : Int) ∧
      ((seekBufferSeek sb offset w).2.1 ≠ none ↔ (w = .start ∧ offset < 0)) ∧
      ((seekBufferSeek sb offset w).2.1 ≠ none → (seekBufferSeek sb offset w).2.2 = sb)) := by
  have htake : (sb.buf.take sb.pos).length = sb.pos := by
    rw [List.length_take]
    omega
  refine ⟨by simp [seekBufferReset], ⟨rfl, rfl, ?_, ?_, ?_, rfl⟩, ?_⟩
  · show sb.pos + p.length ≤ (sb.buf.take sb.pos ++ p ++ sb.buf.drop (sb.pos + p.length)).length
    simp only [List.length_append, htake, List.length_drop]
    omega
  · show (sb.buf.take sb.pos ++ p ++ sb.buf.drop (sb.pos + p.length)).take sb.pos =
      sb.buf.take sb.pos
    rw [List.append_assoc, List.take_append_of_le_length (by omega),
      List.take_of_length_le (by omega)]
  · show ((sb.buf.take sb.pos ++ p ++ sb.buf.drop (sb.pos + p.length)).drop sb.pos).take
      p.length = p
    rw [List.append_assoc, List.drop_left' htake, List.take_append_of_le_length (le_refl _),
      List.take_of_length_le (le_refl _)]
  · cases w with
    | start =>
      by_cases hoff : offset < 0
      · rw [seekBufferSeek, if_pos hoff]
        refine ⟨hinv, rfl, ?_, fun _ => rfl⟩
        simp [hoff]
      · rw [seekBufferSeek, if_neg hoff]
        refine ⟨seekClamp_le sb.buf offset, rfl, ?_, ?_⟩
        · simp [hoff]
        · intro hne
          exact absurd rfl hne
    | fromEnd =>
      rw [seekBufferSeek]
      refine ⟨seekClamp_le sb.buf _, rfl, ?_, ?_⟩
      · constructor
        · intro hne
          exact absurd rfl hne
        · rintro ⟨hw, _⟩
          exact seekWhence.noConfusion hw
      · intro hne
        exact absurd rfl hne
    | current =>
      rw [seekBufferSeek]
      refine ⟨seekClamp_le sb.buf _, rfl, ?_, ?_⟩
      · constructor
        · intro hne
          exact absurd rfl hne
        · rintro ⟨hw, _⟩
          exact seekWhence.noConfusion hw
      · intro hne
        exact absurd rfl hne

/-- Witness for C10 at a concrete buffer state, write and seek. -/
theorem seekBuffer_invariants_witness :
    ((seekBufferReset ⟨[1, 2], 1⟩).pos ≤ (seekBufferReset ⟨[1, 2], 1⟩).buf.length) ∧
    ((seekBufferWrite ⟨[1, 2], 1⟩ [9]).1 = [9].length ∧
      (seekBufferWrite ⟨[1, 2], 1⟩ [9]).2.1 = none ∧
      (seekBufferWrite ⟨[1, 2], 1⟩ [9]).2.2.pos ≤
        (seekBufferWrite ⟨[1, 2], 1⟩ [9]).2.2.buf.length ∧
      (seekBufferWrite ⟨[1, 2], 1⟩ [9]).2.2.buf.take (seekBuffer.pos ⟨[1, 2], 1⟩) =
        (seekBuffer.buf ⟨[1, 2], 1⟩).take (seekBuffer.pos ⟨[1, 2], 1⟩) ∧
      ((seekBufferWrite ⟨[1, 2], 1⟩ [9]).2.2.buf.drop (seekBuffer.pos ⟨[1, 2], 1⟩)).take
        [9].length = [9] ∧
      (seekBufferWrite ⟨[1, 2], 1⟩ [9]).2.2.pos = seekBuffer.pos ⟨[1, 2], 1⟩ + [9].length) ∧
    ((seekBufferSeek ⟨[1, 2], 1⟩ (-1) .start).2.2.pos ≤
        (seekBufferSeek ⟨[1, 2], 1⟩ (-1) .start).2.2.buf.length ∧
      (seekBufferSeek ⟨[1, 2], 1⟩ (-1) .start).1 =
        ((seekBufferSeek ⟨[1, 2], 1⟩ (-1) .start).2.2.pos : Int) ∧
      ((seekBufferSeek ⟨[1, 2], 1⟩ (-1) .start).2.1 ≠ none ↔
        (seekWhence.start = .start ∧ (-1 : Int) < 0)) ∧
      ((seekBufferSeek ⟨[1, 2], 1⟩ (-1) .start).2.1 ≠ none →
        (seekBufferSeek ⟨[1, 2], 1⟩ (-1) .start).2.2 = ⟨[1, 2], 1⟩)) :=
  seekBuffer_invariants ⟨[1, 2], 1⟩ [9] (-1) .start (by decide)
